import Mathlib

/-!
Verification development for the BMNS Bloch-McConnell R1rho fitting engine
(BMNS.py, src/AMPGO.py). The Python source computes with IEEE-754 doubles;
where non-finite values (nan/inf) drive control flow we model scalars by the
type `Fl` below, an exact-rational float model (finite values are exact
rationals, no rounding; the nan/inf propagation and comparison rules follow
IEEE-754 semantics as implemented by numpy). Where a claim is about exact
formula structure we model scalars by `ℚ` directly, and real-valued
quantities involving square roots (Euclidean norms) by `ℝ`.

External collaborators not present in the sources (scipy's minimizers, the
SimR1p simulator, the FitData packing layer, the Stats module) are modelled
as oracle functions supplied as parameters: theorems quantify over all their
possible outputs.
-/

namespace BMNS

/-- Exact model of an IEEE-754 double as used by the fitting code: a value is
nan, -inf, +inf, or a finite value modelled as an exact rational (the code
paths verified here perform no rounding-sensitive reasoning). -/
inductive Fl where
  | nan : Fl
  | ninf : Fl
  | fin : ℚ → Fl
  | inf : Fl
deriving DecidableEq, Repr

/-- numpy.isnan. -/
def flIsNan : Fl → Bool
  | .nan => true
  | _ => false

/-- numpy.isinf (true for both infinities, false for nan and finite values). -/
def flIsInf : Fl → Bool
  | .inf => true
  | .ninf => true
  | _ => false

/-- A float is finite when it is neither nan nor an infinity. -/
def flFinite : Fl → Bool
  | .fin _ => true
  | _ => false

/-- IEEE-754 less-than: any comparison with nan is false; -inf is below every
finite value and +inf; finite values compare as rationals. -/
def flLt : Fl → Fl → Bool
  | .nan, _ => false
  | _, .nan => false
  | .ninf, .ninf => false
  | .ninf, _ => true
  | _, .ninf => false
  | .inf, _ => false
  | .fin _, .inf => true
  | .fin a, .fin b => decide (a < b)

/-- IEEE-754 less-or-equal: false whenever nan is involved. -/
def flLe : Fl → Fl → Bool
  | .nan, _ => false
  | _, .nan => false
  | .ninf, _ => true
  | _, .ninf => false
  | _, .inf => true
  | .inf, .fin _ => false
  | .fin a, .fin b => decide (a ≤ b)

/-- IEEE-754 addition on the model: nan propagates, inf + (-inf) is nan. -/
def flAdd : Fl → Fl → Fl
  | .nan, _ => .nan
  | _, .nan => .nan
  | .inf, .ninf => .nan
  | .ninf, .inf => .nan
  | .inf, _ => .inf
  | _, .inf => .inf
  | .ninf, _ => .ninf
  | _, .ninf => .ninf
  | .fin a, .fin b => .fin (a + b)

/-- IEEE-754 subtraction on the model. -/
def flSub : Fl → Fl → Fl
  | .nan, _ => .nan
  | _, .nan => .nan
  | .inf, .inf => .nan
  | .ninf, .ninf => .nan
  | .inf, _ => .inf
  | .ninf, _ => .ninf
  | .fin _, .inf => .ninf
  | .fin _, .ninf => .inf
  | .fin a, .fin b => .fin (a - b)

/-- IEEE-754 multiplication on the model: nan propagates, inf times zero is
nan, otherwise infinities keep the sign rule. -/
def flMul : Fl → Fl → Fl
  | .nan, _ => .nan
  | _, .nan => .nan
  | .inf, .inf => .inf
  | .inf, .ninf => .ninf
  | .ninf, .inf => .ninf
  | .ninf, .ninf => .inf
  | .inf, .fin b => if b = 0 then .nan else if 0 < b then .inf else .ninf
  | .fin a, .inf => if a = 0 then .nan else if 0 < a then .inf else .ninf
  | .ninf, .fin b => if b = 0 then .nan else if 0 < b then .ninf else .inf
  | .fin a, .ninf => if a = 0 then .nan else if 0 < a then .ninf else .inf
  | .fin a, .fin b => .fin (a * b)

/-- IEEE-754 division on the model: division of a nonzero finite value by
zero yields a signed infinity (numpy emits a warning, not an exception);
0/0 and inf/inf yield nan; a finite value divided by an infinity yields 0
(the model has no signed zero, which none of the verified paths observe). -/
def flDiv : Fl → Fl → Fl
  | .nan, _ => .nan
  | _, .nan => .nan
  | .inf, .inf => .nan
  | .inf, .ninf => .nan
  | .ninf, .inf => .nan
  | .ninf, .ninf => .nan
  | .inf, .fin b => if 0 ≤ b then .inf else .ninf
  | .ninf, .fin b => if 0 ≤ b then .ninf else .inf
  | .fin _, .inf => .fin 0
  | .fin _, .ninf => .fin 0
  | .fin a, .fin b =>
      if b = 0 then (if a = 0 then .nan else if 0 < a then .inf else .ninf)
      else .fin (a / b)

/-- numpy.abs on the model. -/
def flAbs : Fl → Fl
  | .nan => .nan
  | .ninf => .inf
  | .inf => .inf
  | .fin a => .fin |a|

/-- Largest finite IEEE-754 double, the value numpy.nan_to_num substitutes
for +inf: (2^53 - 1) * 2^971. -/
def floatMax : ℚ := (2 ^ 53 - 1) * 2 ^ 971

/-- numpy.nan_to_num on one element: nan becomes 0, +inf the largest finite
double, -inf its negation; finite values pass through. -/
def nanToNum : Fl → Fl
  | .nan => .fin 0
  | .inf => .fin floatMax
  | .ninf => .fin (-floatMax)
  | .fin a => .fin a

/-- Python sum of a list of floats (initial accumulator 0). -/
def flSum (l : List Fl) : Fl := l.foldl flAdd (.fin 0)

/-! ### AMPGO (src/AMPGO.py): tabu list maintenance -/

/-- The two tabu-eviction strategies accepted by AMPGO (the strings
"oldest" and "farthest"; any other string is rejected at entry). -/
inductive TabuStrategy where
  | oldest : TabuStrategy
  | farthest : TabuStrategy
deriving DecidableEq, Repr

/-- Elementwise difference of two points (numpy vector subtraction; numpy
requires equal shapes, which the zipWith model reflects on equal-length
lists). -/
def vsub (a b : List ℚ) : List ℚ := List.zipWith (fun x y => x - y) a b

/-- Sum of squares of a vector, numpy.sum(v**2). -/
def sumSq (v : List ℚ) : ℚ := (v.map (fun x => x ^ 2)).sum

/-- numpy.sum((tabulist - xf)**2, axis=1): the squared Euclidean distance of
each tabu point from xf. -/
def distancesSq (tabulist : List (List ℚ)) (xf : List ℚ) : List ℚ :=
  tabulist.map (fun t => sumSq (vsub t xf))

/-- Running maximum of a list with seed x: List.foldl max x xs. -/
def listMaxD (x : ℚ) (xs : List ℚ) : ℚ := xs.foldl max x

/-- numpy.argmax: index of the first occurrence of the maximum value
(0 on the empty list, on which numpy raises; never reached in the verified
paths). -/
def argmaxIdx : List ℚ → ℕ
  | [] => 0
  | x :: xs => if listMaxD x xs ≤ x then 0 else argmaxIdx xs + 1

/-- Running maximum over real values. -/
noncomputable def listMaxDR (x : ℝ) (xs : List ℝ) : ℝ := xs.foldl max x

/-- numpy.argmax over real values (first occurrence of the maximum), used
to relate the model's squared-distance argmax to the source's argmax over
numpy.sqrt of the squared distances. -/
noncomputable def argmaxIdxR : List ℝ → ℕ
  | [] => 0
  | x :: xs => if listMaxDR x xs ≤ x then 0 else argmaxIdxR xs + 1

/-- AMPGO.drop_tabu_points: leave the list alone while it is shorter than
tabulistsize, otherwise pop index 0 ("oldest") or the index of the point at
maximal distance from xf ("farthest").  The source takes numpy.argmax of
numpy.sqrt of the squared distances; since square root is strictly monotone
on nonnegative reals the argmax is taken here over the squared distances,
which selects the same index. -/
def drop_tabu_points (xf : List ℚ) (tabulist : List (List ℚ))
    (tabulistsize : ℕ) (tabustrategy : TabuStrategy) : List (List ℚ) :=
  if tabulist.length < tabulistsize then tabulist
  else
    match tabustrategy with
    | .oldest => tabulist.tail
    | .farthest => tabulist.eraseIdx (argmaxIdx (distancesSq tabulist xf))

/-! ### AMPGO: tunnelling transform (real-valued, exact) -/

/-- Sum of squares over ℝ. -/
def sumSqR (v : List ℝ) : ℝ := (v.map (fun x => x ^ 2)).sum

/-- Elementwise difference over ℝ. -/
def vsubR (a b : List ℝ) : List ℝ := List.zipWith (fun x y => x - y) a b

/-- AMPGO.tunnel: the Tabu Tunnelling objective,
(objfun(x0) - aspiration)^2 divided by the product over the tabu list of the
Euclidean distances from x0 to each tabu point (denominator starts at 1.0
and is accumulated left to right as in the source loop). -/
noncomputable def tunnel (objfun : List ℝ → ℝ) (aspiration : ℝ)
    (tabulist : List (List ℝ)) (x0 : List ℝ) : ℝ :=
  let numerator := (objfun x0 - aspiration) ^ 2
  let denominator :=
    tabulist.foldl (fun d tabu => d * Real.sqrt (sumSqR (vsubR x0 tabu))) 1
  numerator / denominator

/-- AMPGO.inverse_tunnel: recovers an objective estimate from a tunnelled
value: aspiration + sqrt(ytf * denominator) with the same distance-product
denominator. -/
noncomputable def inverse_tunnel (xtf : List ℝ) (ytf aspiration : ℝ)
    (tabulist : List (List ℝ)) : ℝ :=
  let denominator :=
    tabulist.foldl (fun d tabu => d * Real.sqrt (sumSqR (vsubR xtf tabu))) 1
  aspiration + Real.sqrt (ytf * denominator)

/-- The constant objective returning 0, used as a concrete witness input. -/
def zeroObj : List ℝ → ℝ := fun _ => 0

/-- The constant objective returning 5, used as a concrete witness input. -/
def fiveObj : List ℝ → ℝ := fun _ => 5

/-! ### AMPGO: tunnelling-phase perturbation step (float-valued)

The source computes beta = eps2*norm(xf)/norm(r), floors it to eps2 when
its magnitude is below 1e-8, and sets the new start to xf + beta*r clipped
to the bounds.  The two norms are computed by numpy.linalg.norm (a square
root, hence irrational in general); they enter the model as separate `Fl`
inputs nxf and nr, with nr = 0 exactly when r is the zero vector. -/

/-- beta before the floor: eps2 * nxf / nr in float arithmetic. -/
def betaRaw (eps2 nxf nr : Fl) : Fl := flDiv (flMul eps2 nxf) nr

/-- beta after the floor: if numpy.abs(beta) < 1e-8 then eps2 else beta. -/
def betaFloor (eps2 nxf nr : Fl) : Fl :=
  if flLt (flAbs (betaRaw eps2 nxf nr)) (.fin (1 / 100000000)) then eps2
  else betaRaw eps2 nxf nr

/-- Python zip of four lists (stops at the shortest). -/
def zip4 {α β γ δ : Type} :
    List α → List β → List γ → List δ → List (α × β × γ × δ)
  | a :: as, b :: bs, c :: cs, d :: ds => (a, b, c, d) :: zip4 as bs cs ds
  | _, _, _, _ => []

/-- x0 = xf + beta*r followed by the two numpy.where clips:
where(x0 < low, low, x0) then where(x0 > up, up, x0), elementwise in float
semantics (a nan component fails both comparisons and passes through). -/
def perturbClip (beta : Fl) (xf r low up : List Fl) : List Fl :=
  (zip4 xf r low up).map (fun q =>
    let v := flAdd q.1 (flMul beta q.2.1)
    let v1 := if flLt v q.2.2.1 then q.2.2.1 else v
    if flLt q.2.2.2 v1 then q.2.2.2 else v1)

/-- The full tunnelling-phase start-point computation (AMPGO lines 196-205):
compute beta from the norms, floor it, perturb and clip. -/
def tunnelStart (eps2 nxf nr : Fl) (xf r low up : List Fl) : List Fl :=
  perturbClip (betaFloor eps2 nxf nr) xf r low up

/-! ### AMPGO: the main optimization loop

scipy.optimize.minimize is an external collaborator; each of its calls is
modelled by an oracle stream indexed by the number of calls made so far, so
the theorems below hold for every possible sequence of solver results.  For
the tunnelling phase the source feeds the solver result through
inverse_tunnel (a real square root) before using it; the tunnelling oracle
supplies that recovered value directly, which over-approximates the set of
reachable behaviours.  The perturbation start point (lines 196-205) is
consumed only by the external solver and so does not appear in the loop
state. -/

/-- Result of one external local-solver call: final point, objective value
(for tunnelling phases, the value after the inverse_tunnel recovery), and
the number of function evaluations consumed. -/
structure SolveRes where
  xf : List ℚ
  yf : Fl
  nfev : ℕ
deriving DecidableEq, Repr

/-- Oracle streams for the two kinds of local-solver calls. -/
structure AmpgoEnv where
  msol : ℕ → SolveRes
  tsol : ℕ → SolveRes

/-- The AMPGO arguments relevant to the control flow. -/
structure AmpgoCfg where
  totaliter : ℕ
  maxiter : ℕ
  glbtol : ℚ
  tabulistsize : ℕ
  tabustrategy : TabuStrategy
  fmin : Fl
  maxfunevals : ℤ

/-- The mutable loop state of AMPGO. -/
structure AmpgoSt where
  xf : List ℚ
  best_f : Fl
  best_x : List ℚ
  funevalsLeft : ℤ
  evaluations : ℕ
  tabulist : List (List ℚ)
  all_tunnel : ℕ
  success_tunnel : ℕ
  mcount : ℕ
  tcount : ℕ
deriving DecidableEq, Repr

/-- The three termination reasons of AMPGO. -/
inductive AmpgoMsg where
  | success : AmpgoMsg
  | maxfev : AmpgoMsg
  | maxiterExceeded : AmpgoMsg
deriving DecidableEq, Repr

/-- The exact message string returned by AMPGO for each termination reason. -/
def msgText : AmpgoMsg → String
  | .success => "Optimization terminated successfully"
  | .maxfev => "Maximum number of function evaluations exceeded"
  | .maxiterExceeded => "Maximum number of global iterations exceeded"

/-- The 5-tuple returned by AMPGO: best point, best value, evaluation count,
termination reason, and (attempted, successful) tunnelling counts. -/
structure AmpgoOut where
  best_x : List ℚ
  best_f : Fl
  evaluations : ℕ
  msg : AmpgoMsg
  tunnelInfo : ℕ × ℕ
deriving DecidableEq, Repr

/-- Package the current state into a return value. -/
def mkOut (m : AmpgoMsg) (st : AmpgoSt) : AmpgoOut :=
  ⟨st.best_x, st.best_f, st.evaluations, m, (st.all_tunnel, st.success_tunnel)⟩

/-- Bookkeeping after a tunnelling-phase solver call (AMPGO lines 222-226,
plus the attempt counter of line 194): record the solver point, spend the
evaluations, bump the attempt and call counters. -/
def tunnelAccount (st : AmpgoSt) (r : SolveRes) : AmpgoSt :=
  { st with
    xf := r.xf
    funevalsLeft := st.funevalsLeft - (r.nfev : ℤ)
    evaluations := st.evaluations + r.nfev
    all_tunnel := st.all_tunnel + 1
    tcount := st.tcount + 1 }

/-- The acceptance test of line 230 (yf already recovered by
inverse_tunnel): on improvement update best point/value and the success
counter. -/
def tunnelImprove (glbtol : ℚ) (st1 : AmpgoSt) (r : SolveRes) :
    AmpgoSt × Bool :=
  if flLe r.yf (flAdd st1.best_f (.fin glbtol)) then
    ({ st1 with
       best_f := r.yf
       best_x := r.xf
       success_tunnel := st1.success_tunnel + 1 }, true)
  else (st1, false)

/-- The tabu-list update of lines 182-183 and 248-249: drop, then append
the latest solver point. -/
def tabuAppend (cfg : AmpgoCfg) (st : AmpgoSt) : AmpgoSt :=
  { st with
    tabulist :=
      drop_tabu_points st.xf st.tabulist cfg.tabulistsize cfg.tabustrategy
        ++ [st.xf] }

/-- One pass of the Tabu Tunnelling inner loop body plus its continuation,
with fuel = maxiter - i (the loop runs while i < maxiter and no improvement
was found).  Returns either a final AMPGO result (early return) or the state
in which the inner loop exits to the outer loop. -/
def tunnelLoop (cfg : AmpgoCfg) (env : AmpgoEnv) :
    ℕ → AmpgoSt → AmpgoOut ⊕ AmpgoSt
  | 0, st => .inr st
  | fuel + 1, st =>
    let p := tunnelImprove cfg.glbtol (tunnelAccount st (env.tsol st.tcount))
      (env.tsol st.tcount)
    if flLt p.1.best_f (flAdd cfg.fmin (.fin cfg.glbtol)) then
      .inl (mkOut .success p.1)
    else if p.1.funevalsLeft ≤ 0 then
      .inl (mkOut .maxfev p.1)
    else if p.2 then .inr (tabuAppend cfg p.1)
    else tunnelLoop cfg env fuel (tabuAppend cfg p.1)

/-- Bookkeeping after a minimization-phase solver call (lines 163-164):
record the point, spend the evaluations, bump the call counter. -/
def minimAccount (st : AmpgoSt) (r : SolveRes) : AmpgoSt :=
  { st with
    xf := r.xf
    funevalsLeft := st.funevalsLeft - (r.nfev : ℤ)
    evaluations := st.evaluations + r.nfev
    mcount := st.mcount + 1 }

/-- The best-point update of lines 166-168. -/
def minimBest (st1 : AmpgoSt) (r : SolveRes) : AmpgoSt :=
  if flLt r.yf st1.best_f then { st1 with best_f := r.yf, best_x := r.xf }
  else st1

/-- One iteration of the outer while-loop of AMPGO up to (but excluding) the
global-iteration-count check: minimization phase, best update, the success
and budget early returns, the tabu-list update, and the tunnelling loop. -/
def outerStep (cfg : AmpgoCfg) (env : AmpgoEnv) (st : AmpgoSt) :
    AmpgoOut ⊕ AmpgoSt :=
  let st2 := minimBest (minimAccount st (env.msol st.mcount))
    (env.msol st.mcount)
  if flLt st2.best_f (flAdd cfg.fmin (.fin cfg.glbtol)) then
    .inl (mkOut .success st2)
  else if st2.funevalsLeft ≤ 0 then
    .inl (mkOut .maxfev st2)
  else tunnelLoop cfg env cfg.maxiter (tabuAppend cfg st2)

/-- The outer while-loop.  The source increments global_iter at the end of
each pass and returns when global_iter >= totaliter; with
fuel = totaliter - 1 - global_iter this becomes: at fuel 0 the pass returns
the exceeded-iterations message, otherwise the pass recurses (after the
redundant final success check of line 260).  For totaliter = 0 the source
still executes one pass (1 >= 0 only holds after the increment), which
coincides with fuel = 0 under truncated subtraction. -/
def globalLoop (cfg : AmpgoCfg) (env : AmpgoEnv) :
    ℕ → AmpgoSt → AmpgoOut
  | 0, st =>
    match outerStep cfg env st with
    | .inl out => out
    | .inr st1 => mkOut .maxiterExceeded st1
  | fuel + 1, st =>
    match outerStep cfg env st with
    | .inl out => out
    | .inr st1 =>
      if flLt st1.best_f (flAdd cfg.fmin (.fin cfg.glbtol)) then
        mkOut .success st1
      else globalLoop cfg env fuel st1

/-- AMPGO entry: validates tabulistsize (the source raises on a value below
1) and runs the loop from the initial state best_f = +inf, best_x = x0,
empty tabu list. -/
def AMPGO (cfg : AmpgoCfg) (env : AmpgoEnv) (x0 : List ℚ) :
    Except String AmpgoOut :=
  if cfg.tabulistsize < 1 then .error "Invalid tabulistsize specified"
  else
    .ok (globalLoop cfg env (cfg.totaliter - 1)
      ⟨x0, .inf, x0, cfg.maxfunevals, 0, [], 0, 0, 0, 0⟩)

/-! ### BMNS.py objective functions (R1rho mode)

One row of a dataset's R1pD array: offset, spinlock power, observed R1rho,
and the per-point R1rho uncertainty (column 4 of the csv; always present in
the parsed array, one entry per data point).  The SimR1p simulator
(sim.BMFitFunc, composed with the UnpackgP0 parameter resolution) is an
external collaborator: it is modelled as an oracle function of the dataset
and the row quantities the source passes it (spinlock power, negated offset,
observed R1rho; the Larmor frequency, relaxation-time vector and alignment
tag are per-dataset constants absorbed into the oracle's dataset argument).
-/

/-- One data point of an R1rho dataset. -/
structure R1pRow where
  off : ℚ
  slp : ℚ
  r1p : ℚ
  err : ℚ
deriving DecidableEq, Repr

/-- One Fit object (dataset) as seen by the objective functions. -/
structure FitOb where
  rows : List R1pRow
deriving DecidableEq, Repr

/-- chi2 (BMNS.py lines 224-246, R1p branch) in exact arithmetic: loop over
the Fit objects, unpack the four columns, and accumulate either
((sim - R1p)/err)^2 (dataset error column longer than one entry) or
(sim - R1p)^2 / R1p, over the Python zip of the four columns.
pred ob SL OF kR1p stands for sim.BMFitFunc(tPars, SL, OF, lf, time,
AlignMag, 0, kR1p); the source passes OF = -1.*Offs. -/
def chi2R1p (obs : List FitOb) (pred : FitOb → ℚ → ℚ → ℚ → ℚ) : ℚ :=
  obs.foldl (fun chisq ob =>
    let offs := ob.rows.map R1pRow.off
    let spinlock := ob.rows.map R1pRow.slp
    let r1p := ob.rows.map R1pRow.r1p
    let r1pE := ob.rows.map R1pRow.err
    if 1 < r1pE.length then
      chisq + ((zip4 spinlock offs r1p r1pE).map (fun q =>
        ((pred ob q.1 (-1 * q.2.1) q.2.2.1 - q.2.2.1) / q.2.2.2) ^ 2)).sum
    else
      chisq + ((zip4 spinlock offs r1p r1pE).map (fun q =>
        (pred ob q.1 (-1 * q.2.1) q.2.2.1 - q.2.2.1) ^ 2 / q.2.2.1)).sum) 0

/-- The chi-square formula as the specification states it: a sum over all
datasets and all data points of ((predicted-observed)/error)^2 when the
dataset's per-point error column is usable (more than one entry, i.e. more
than one data point), and (predicted-observed)^2/observed otherwise. -/
def chi2Spec (obs : List FitOb) (pred : FitOb → ℚ → ℚ → ℚ → ℚ) : ℚ :=
  (obs.map (fun ob =>
    if 1 < ob.rows.length then
      (ob.rows.map (fun row =>
        ((pred ob row.slp (-1 * row.off) row.r1p - row.r1p) / row.err) ^ 2)).sum
    else
      (ob.rows.map (fun row =>
        (pred ob row.slp (-1 * row.off) row.r1p - row.r1p) ^ 2 / row.r1p)).sum)).sum

/-- chi2 accumulation in float semantics: the same loop as chi2R1p but with
the simulator output an arbitrary float (possibly nan or inf, as happens
when the simulated decay crosses zero) and all arithmetic IEEE-754. -/
def chi2R1pFlAcc (obs : List FitOb) (pred : FitOb → ℚ → ℚ → ℚ → Fl) : Fl :=
  obs.foldl (fun chisq ob =>
    let offs := ob.rows.map R1pRow.off
    let spinlock := ob.rows.map R1pRow.slp
    let r1p := ob.rows.map R1pRow.r1p
    let r1pE := ob.rows.map R1pRow.err
    if 1 < r1pE.length then
      flAdd chisq (flSum ((zip4 spinlock offs r1p r1pE).map (fun q =>
        let d := flDiv (flSub (pred ob q.1 (-1 * q.2.1) q.2.2.1)
          (.fin q.2.2.1)) (.fin q.2.2.2)
        flMul d d)))
    else
      flAdd chisq (flSum ((zip4 spinlock offs r1p r1pE).map (fun q =>
        let d := flSub (pred ob q.1 (-1 * q.2.1) q.2.2.1) (.fin q.2.2.1)
        flDiv (flMul d d) (.fin q.2.2.1))))) (.fin 0)

/-- The final non-finite guard of chi2 (BMNS.py lines 267-276): a nan or
infinite accumulated chi-square is replaced by the sentinel 1e4. -/
def chi2Guard (chisq : Fl) : Fl :=
  if flIsNan chisq || flIsInf chisq then .fin 10000 else chisq

/-- chi2 in float semantics: accumulate, then apply the sentinel guard. -/
def chi2R1pFl (obs : List FitOb) (pred : FitOb → ℚ → ℚ → ℚ → Fl) : Fl :=
  chi2Guard (chi2R1pFlAcc obs pred)

/-- residual (BMNS.py lines 285-378, R1p branch, BM equation, no Monte-Carlo
corruption) in float semantics: per-point absolute((sim - R1p)/err) when the
dataset error column has more than one entry, sim - R1p otherwise,
concatenated across the Fit objects. -/
def residualR1pFlAcc (obs : List FitOb)
    (pred : FitOb → ℚ → ℚ → ℚ → Fl) : List Fl :=
  obs.foldl (fun resid ob =>
    let offs := ob.rows.map R1pRow.off
    let spinlock := ob.rows.map R1pRow.slp
    let r1p := ob.rows.map R1pRow.r1p
    let r1pE := ob.rows.map R1pRow.err
    if 1 < r1pE.length then
      resid ++ (zip4 spinlock offs r1p r1pE).map (fun q =>
        flAbs (flDiv (flSub (pred ob q.1 (-1 * q.2.1) q.2.2.1)
          (.fin q.2.2.1)) (.fin q.2.2.2)))
    else
      resid ++ (zip4 spinlock offs r1p r1pE).map (fun q =>
        flSub (pred ob q.1 (-1 * q.2.1) q.2.2.1) (.fin q.2.2.1))) []

/-- True when a float is nan or infinite. -/
def flNonFinite (v : Fl) : Bool := flIsNan v || flIsInf v

/-- The final non-finite guard of residual (BMNS.py lines 368-378): when any
element of the residual array is nan or infinite, the whole array is passed
through numpy.nan_to_num. -/
def residGuard (resid : List Fl) : List Fl :=
  if resid.any flNonFinite then resid.map nanToNum else resid

/-- residual in float semantics: accumulate, then apply the guard. -/
def residualR1pFl (obs : List FitOb)
    (pred : FitOb → ℚ → ℚ → ℚ → Fl) : List Fl :=
  residGuard (residualR1pFlAcc obs pred)

/-! ### Brute-force fit path (BMNS.py lines 625-730)

Each grid point idx is scored by a single-iteration least_squares call
followed by chi2 and division by the degrees of freedom; that composite
(external solver plus objective) is the oracle `score`.  Brute_loop builds a
Python dict mapping the reduced chi-square to the grid point (the insertion
is repeated once per Fit object, with identical key and value each time);
parmap evaluates all grid indices and restores index order.  The aggregation
then executes allfits = dict(allfits[0]) and seeds the final refinement from
allfits[min(allfits.keys())]. -/

/-- Python dict insertion on an insertion-ordered association list:
overwrite the value when the key is present, else append. -/
def dictInsert (d : List (ℚ × List ℚ)) (k : ℚ) (v : List ℚ) :
    List (ℚ × List ℚ) :=
  if d.any (fun p => p.1 = k) then
    d.map (fun p => if p.1 = k then (k, v) else p)
  else d ++ [(k, v)]

/-- min(d.keys()) (0 on an empty dict, on which Python raises; never
reached in the verified path). -/
def dictMinKey (d : List (ℚ × List ℚ)) : ℚ :=
  match d with
  | [] => 0
  | p :: ps => (ps.map Prod.fst).foldl min p.1

/-- Dict lookup d[k] (empty list when absent, where Python raises). -/
def dictGet (d : List (ℚ × List ℚ)) (k : ℚ) : List ℚ :=
  ((d.find? (fun p => decide (p.1 = k))).getD (0, [])).2

/-- Brute_loop idx: score the grid point once, then store
allfits[redChiSq] = gl.brutegP0[idx] once per Fit object (nObs is the
number of Fit objects; the key and value are identical on every pass of the
source's loop over gl.gObs because chi2 sums over all datasets). -/
def Brute_loop (score : ℕ → ℚ) (grid : ℕ → List ℚ) (nObs : ℕ)
    (idx : ℕ) : List (ℚ × List ℚ) :=
  (List.range nObs).foldl
    (fun allfits _ => dictInsert allfits (score idx) (grid idx)) []

/-- parmap: the worker pool evaluates f at every index and the results are
collected and re-sorted by index, so the aggregate equals the in-order map. -/
def parmap {α : Type} (f : ℕ → α) (xs : List ℕ) : List α := xs.map f

/-- The seed of the final brute-force refinement as the source computes it:
allfits = parmap(Brute_loop, range(n)); allfits = dict(allfits[0]);
tP0 = allfits[min(allfits.keys())]. -/
def bruteSeed (score : ℕ → ℚ) (grid : ℕ → List ℚ) (nObs n : ℕ) : List ℚ :=
  let allfitsList := parmap (Brute_loop score grid nObs) (List.range n)
  let allfits := allfitsList.headD []
  dictGet allfits (dictMinKey allfits)

/-- numpy-style first-occurrence argmin over a list of rationals. -/
def argminIdx : List ℚ → ℕ
  | [] => 0
  | x :: xs => if x ≤ xs.foldl min x then 0 else argminIdx xs + 1

/-- The seed the specification calls for: the grid point whose reduced
chi-square is lowest over the whole grid. -/
def bruteSeedSpec (score : ℕ → ℚ) (grid : ℕ → List ℚ) (n : ℕ) : List ℚ :=
  grid (argminIdx ((List.range n).map score))

/-! ### The Main fitting loop (BMNS.py lines 386-731)

The external collaborators of the loop are modelled as oracle fields of
`MainEnv`: scipy's least_squares (`lsq`; the Monte-Carlo refit of noise
draw i seeded at a point, `lsqMC`; the intensity-mode variants `lsqInt`,
`lsqIntMC`), the AMPGO composite (`ampgo`), sf.cStdErr (`cStdErr`),
MCpars.std(axis=0) (`mcStd`, a square root), gl.UnpackgP0 / gl.UnpackErr per
Fit-object index (`unpackP`, `unpackE`), gl.RandomgP0 (`randP0`), the
intensity-mode chi2 (`chi2Int`) and intensity error-column sum
(`intErrSum`), and the brute-force grid with its per-point scores.  R1rho
chi-square values are computed with the chi2R1p model above. -/

/-- Result of a least_squares call: converged point, residual vector,
Jacobian, and evaluation count. -/
structure LsqResult where
  x : List ℚ
  fn : List ℚ
  jac : List (List ℚ)
  nfev : ℕ
deriving DecidableEq, Repr

/-- One output fit record: stage label, loop index, Fit-object index,
unpacked parameters, reduced chi-square, evaluation count, and unpacked
per-parameter errors when computed. -/
structure FitRecord where
  stage : String
  loopIdx : ℕ
  obIdx : ℕ
  pars : List ℚ
  redChiSq : ℚ
  nfev : ℕ
  errPars : Option (List ℚ)
deriving DecidableEq, Repr

/-- Environment of one Main fitting-loop iteration. -/
structure MainEnv where
  obs : List FitOb
  pred : List ℚ → FitOb → ℚ → ℚ → ℚ → ℚ
  dof : ℚ
  rndStart : Bool
  gP0 : List ℚ
  randP0 : List ℚ
  ampgo : List ℚ → List ℚ × ℚ × ℕ
  lsq : List ℚ → LsqResult
  lsqMC : List ℚ → ℕ → LsqResult
  cStdErr : LsqResult → List ℚ
  mcStd : List (List ℚ) → List ℚ
  unpackP : List ℚ → ℕ → List ℚ
  unpackE : List ℚ → ℕ → List ℚ
  lsqInt : List ℚ → LsqResult
  lsqIntMC : List ℚ → ℕ → LsqResult
  chi2Int : List ℚ → ℚ
  intErrSum : ℕ → ℚ
  bruteScore : ℕ → ℚ
  bruteGrid : ℕ → List ℚ
  nBrute : ℕ

/-- The starting vector of one loop iteration: gl.RandomgP0() when
RandomFitStart is flagged, else gl.gP0. -/
def tP0 (env : MainEnv) : List ℚ :=
  if env.rndStart then env.randP0 else env.gP0

/-- The chi2 closure applied at a parameter vector (R1p mode). -/
def chi2val (env : MainEnv) (x : List ℚ) : ℚ :=
  chi2R1p env.obs (env.pred x)

/-- Fit-error selection of the local path without Monte-Carlo estimation
(BMNS.py lines 499-505): the analytic standard error when the dataset's
uncertainty column has nonzero sum, else numpy.zeros of the fitted
parameter vector's shape. -/
def analyticFitErr (errColSum : ℚ) (n : ℕ) (stdErr : List ℚ) : List ℚ :=
  if errColSum ≠ 0 then stdErr else List.replicate n 0

/-- ob.R1pD[:,3].sum(): the sum of a dataset's uncertainty column. -/
def obErrSum (ob : FitOb) : ℚ := (ob.rows.map R1pRow.err).sum

/-- The global branch (lines 387-454): AMPGO from the start vector, one
"global" record per Fit object, then the Levenberg-Marquardt polish seeded
at the AMPGO point and one "polish" record per Fit object.  When mcerr is
flagged the source only prints a notice that no Monte-Carlo estimation will
be run; neither mcerr nor fitMC is read anywhere else in this branch, so the
branch takes neither as input. -/
def globalBranch (env : MainEnv) (lp : ℕ) : List FitRecord :=
  let s := tP0 env
  let fitted := env.ampgo s
  let grecs := env.obs.enum.map (fun p =>
    FitRecord.mk "global" lp p.1 (env.unpackP fitted.1 p.1)
      (fitted.2.1 / env.dof) fitted.2.2 none)
  let pol := env.lsq fitted.1
  let chisq := chi2val env pol.x
  let fiterr := env.cStdErr pol
  let precs := env.obs.enum.map (fun p =>
    FitRecord.mk "polish" lp p.1 (env.unpackP pol.x p.1)
      (chisq / env.dof) pol.nfev (some (env.unpackE fiterr p.1)))
  grecs ++ precs

/-- The local branch (lines 456-531): least_squares from the start vector;
when mcerr is flagged, fitMC noise-corrupted refits seeded at the converged
point collect MCpars and the per-parameter error is their standard
deviation, with one "mcerr" record per refit; otherwise the analytic /
zeros selection applies.  One "local" record per Fit object. -/
def localBranch (env : MainEnv) (mcerr : Bool) (fitMC : ℕ) (lp : ℕ) :
    List FitRecord :=
  let s := tP0 env
  let fitted := env.lsq s
  let mcPars :=
    if mcerr then (List.range fitMC).map (fun i => (env.lsqMC fitted.x i).x)
    else []
  let chisq := chi2val env fitted.x
  env.obs.enum.flatMap (fun p =>
    let fiterr :=
      if mcerr then env.mcStd mcPars
      else analyticFitErr (obErrSum p.2) fitted.x.length (env.cStdErr fitted)
    let mcrecs :=
      if mcerr then
        (mcPars.map (fun f => (f, chi2val env f / env.dof))).enum.map (fun q =>
          FitRecord.mk "mcerr" (q.1 + 1) p.1 (env.unpackP q.2.1 p.1) q.2.2
            fitted.nfev (some (env.unpackE fiterr p.1)))
      else []
    mcrecs ++ [FitRecord.mk "local" lp p.1 (env.unpackP fitted.x p.1)
      (chisq / env.dof) fitted.nfev (some (env.unpackE fiterr p.1))])

/-- The local intensity branch (lines 533-619): like the local branch but
fitting intensities (least_squares with DataType Ints, the intensity-mode
chi2, the intensity error-column test, and intensity noise corruption in
the Monte-Carlo refits; the source evaluates the Monte-Carlo reduced
chi-squares at fitted.x). -/
def localIntBranch (env : MainEnv) (mcerr : Bool) (fitMC : ℕ) (lp : ℕ) :
    List FitRecord :=
  let s := tP0 env
  let fitted := env.lsqInt s
  let mcPars :=
    if mcerr then
      (List.range fitMC).map (fun i => (env.lsqIntMC fitted.x i).x)
    else []
  let chisq := env.chi2Int fitted.x
  env.obs.enum.flatMap (fun p =>
    let fiterr :=
      if mcerr then env.mcStd mcPars
      else analyticFitErr (env.intErrSum p.1) fitted.x.length
        (env.cStdErr fitted)
    let mcrecs :=
      if mcerr then
        (mcPars.map (fun f => (f, env.chi2Int fitted.x / env.dof))).enum.map
          (fun q =>
            FitRecord.mk "mcerr" (q.1 + 1) p.1 (env.unpackP q.2.1 p.1) q.2.2
              fitted.nfev (some (env.unpackE fiterr p.1)))
      else []
    mcrecs ++ [FitRecord.mk "local" lp p.1 (env.unpackP fitted.x p.1)
      (chisq / env.dof) fitted.nfev (some (env.unpackE fiterr p.1))])

/-- The brute branch (lines 625-730) after the grid scoring: the final
refinement is seeded by bruteSeed and written as "local" records with loop
index len(grid)+1.  Neither mcerr nor fitMC occurs in this branch. -/
def bruteBranch (env : MainEnv) : List FitRecord :=
  let seed := bruteSeed env.bruteScore env.bruteGrid env.obs.length env.nBrute
  let fitted := env.lsq seed
  let chisq := chi2val env fitted.x
  let fiterr := env.cStdErr fitted
  env.obs.enum.map (fun p =>
    FitRecord.mk "local" (env.nBrute + 1) p.1 (env.unpackP fitted.x p.1)
      (chisq / env.dof) fitted.nfev (some (env.unpackE fiterr p.1)))

/-- The four fit types dispatched by the Main loop. -/
inductive FitType where
  | glob : FitType
  | loc : FitType
  | locint : FitType
  | brute : FitType
deriving DecidableEq, Repr

/-- One iteration of the Main fitting loop: dispatch on gl.FitType. -/
def mainFitIteration (ft : FitType) (mcerr : Bool) (fitMC : ℕ)
    (env : MainEnv) (lp : ℕ) : List FitRecord :=
  match ft with
  | .glob => globalBranch env lp
  | .loc => localBranch env mcerr fitMC lp
  | .locint => localIntBranch env mcerr fitMC lp
  | .brute => bruteBranch env

/-! ### Concrete instances used by witness theorems -/

/-- A concrete AMPGO configuration with no known global optimum
(fmin = -inf, the default). -/
def cfgW : AmpgoCfg := ⟨1, 1, 1 / 100000, 1, .farthest, .ninf, 10⟩

/-- A concrete solver oracle: every call converges to the origin with value
1 after one evaluation. -/
def envAW : AmpgoEnv := ⟨fun _ => ⟨[], .fin 1, 1⟩, fun _ => ⟨[], .fin 1, 1⟩⟩

/-- A one-point, one-dataset instance. -/
def obsW : List FitOb := [⟨[⟨0, 0, 1, 1⟩]⟩]

/-- A simulator oracle that always produces nan (as happens when the
simulated decay crosses zero). -/
def predNanW : FitOb → ℚ → ℚ → ℚ → Fl := fun _ _ _ _ => .nan

/-- The constant brute-force score making grid point 1 the best of two. -/
def scoreW : ℕ → ℚ := fun i => if i = 0 then 5 else 1

/-- A concrete brute-force grid: point i is the vector [i]. -/
def gridW : ℕ → List ℚ := fun i => [(i : ℚ)]

/-- A concrete Main-loop environment for witness instantiation. -/
def envW : MainEnv where
  obs := obsW
  pred := fun _ _ _ _ _ => 0
  dof := 1
  rndStart := false
  gP0 := [1]
  randP0 := [2]
  ampgo := fun s => (s, 0, 1)
  lsq := fun s => ⟨s, [], [], 1⟩
  lsqMC := fun s _ => ⟨s, [], [], 1⟩
  cStdErr := fun _ => [3]
  mcStd := fun _ => [4]
  unpackP := fun v _ => v
  unpackE := fun v _ => v
  lsqInt := fun s => ⟨s, [], [], 1⟩
  lsqIntMC := fun s _ => ⟨s, [], [], 1⟩
  chi2Int := fun _ => 0
  intErrSum := fun _ => 0
  bruteScore := scoreW
  bruteGrid := gridW
  nBrute := 2

/-! ## Theorems -/

/-- numpy.nan_to_num always yields a finite value. -/
theorem nanToNum_finite : ∀ v, flFinite (nanToNum v) = true := by
  intro v
  cases v <;> rfl

/-- A float that is neither nan nor infinite is finite. -/
theorem finite_of_not_nonFinite {v : Fl} (h : flNonFinite v = false) :
    flFinite v = true := by
  cases v <;> simp_all [flNonFinite, flIsNan, flIsInf, flFinite]

/-- C2: for every parameter vector the scalar objective chi2 and the vector
objective residual return only finite values: a nan or infinite accumulated
chi-square is replaced by the finite sentinel 1e4, and a residual array
containing any nan or infinite element is returned with every non-finite
element replaced by a finite value (numpy.nan_to_num). -/
theorem c2_finite_objectives (obs : List FitOb)
    (p1 p2 : FitOb → ℚ → ℚ → ℚ → Fl) :
    flFinite (chi2R1pFl obs p1) = true
    ∧ (flNonFinite (chi2R1pFlAcc obs p1) = true →
        chi2R1pFl obs p1 = .fin 10000)
    ∧ (∀ v ∈ residualR1pFl obs p2, flFinite v = true)
    ∧ ((residualR1pFlAcc obs p2).any flNonFinite = true →
        residualR1pFl obs p2 = (residualR1pFlAcc obs p2).map nanToNum)
    ∧ (∀ v, flFinite (nanToNum v) = true)
    ∧ (residualR1pFl obs p2).length = (residualR1pFlAcc obs p2).length := by
  refine ⟨?_, ?_, ?_, ?_, nanToNum_finite, ?_⟩
  · unfold chi2R1pFl chi2Guard
    cases chi2R1pFlAcc obs p1 <;> simp [flIsNan, flIsInf, flFinite]
  · intro h
    unfold chi2R1pFl chi2Guard
    unfold flNonFinite at h
    simp [h]
  · intro v hv
    unfold residualR1pFl residGuard at hv
    by_cases h : (residualR1pFlAcc obs p2).any flNonFinite = true
    · rw [if_pos h] at hv
      obtain ⟨w, _, rfl⟩ := List.mem_map.mp hv
      exact nanToNum_finite w
    · rw [if_neg h] at hv
      refine finite_of_not_nonFinite ?_
      cases hfv : flNonFinite v
      · rfl
      · exact absurd (List.any_eq_true.mpr ⟨v, hv, hfv⟩) h
  · intro h
    unfold residualR1pFl residGuard
    rw [if_pos h]
  · unfold residualR1pFl residGuard
    split
    · rw [List.length_map]
    · rfl

/-- C2 witness: with one dataset of one point and a simulator that returns
nan, the accumulated chi-square is non-finite and chi2 returns 1e4. -/
theorem c2_witness :
    chi2R1pFl obsW predNanW = .fin 10000
    ∧ flNonFinite (chi2R1pFlAcc obsW predNanW) = true := by
  have h : flNonFinite (chi2R1pFlAcc obsW predNanW) = true := by
    simp [obsW, predNanW, chi2R1pFlAcc, zip4, flSub, flMul, flDiv, flSum,
      flAdd, flNonFinite, flIsNan, flIsInf]
  exact ⟨(c2_finite_objectives obsW predNanW predNanW).2.1 h, h⟩

/-- C10: for the global fit type, the produced fit records (global and
polish stages) are identical for any two settings of the mcerr flag and the
fitMC iteration count: the global branch reads neither. -/
theorem c10_global_ignores_mc (env : MainEnv) (lp : ℕ)
    (m1 m2 : Bool) (n1 n2 : ℕ) :
    mainFitIteration .glob m1 n1 env lp
      = mainFitIteration .glob m2 n2 env lp := rfl

/-- C9: in the local fit path without Monte-Carlo error estimation, a
dataset whose uncertainty column sums to exactly zero gets the all-zeros
error vector of the fitted parameter vector's shape, a nonzero sum gets the
analytic standard error, and the local branch feeds exactly this selection
into each dataset's record. -/
theorem c9_zero_error_column (s : ℚ) (n : ℕ) (e : List ℚ) (env : MainEnv)
    (fitMC lp : ℕ) :
    (s = 0 → analyticFitErr s n e = List.replicate n 0
      ∧ (analyticFitErr s n e).length = n)
    ∧ (s ≠ 0 → analyticFitErr s n e = e)
    ∧ localBranch env false fitMC lp = env.obs.enum.flatMap (fun p =>
        [FitRecord.mk "local" lp p.1 (env.unpackP (env.lsq (tP0 env)).x p.1)
          (chi2val env (env.lsq (tP0 env)).x / env.dof)
          (env.lsq (tP0 env)).nfev
          (some (env.unpackE (analyticFitErr (obErrSum p.2)
            (env.lsq (tP0 env)).x.length
            (env.cStdErr (env.lsq (tP0 env)))) p.1))]) := by
  refine ⟨?_, ?_, rfl⟩
  · intro hs
    subst hs
    simp [analyticFitErr]
  · intro hs
    simp [analyticFitErr, hs]

/-- C9 witness: a zero column sum yields the zeros vector of the parameter
shape, a nonzero one the analytic error, in a concrete environment. -/
theorem c9_witness :
    analyticFitErr 0 2 [5] = [0, 0] ∧ analyticFitErr 1 2 [5] = [5] :=
  ⟨by simpa using ((c9_zero_error_column 0 2 [5] envW 0 1).1 rfl).1,
   (c9_zero_error_column 1 2 [5] envW 0 1).2.1 (by norm_num)⟩

/-- C8 counterexample: with a zero-norm perturbation direction r (and the
last local minimum of norm 1), beta = eps2*1/0 evaluates to +inf in float
arithmetic, whose magnitude is not below 1e-8, so the floor to eps2 does not
fire: the applied scale is +inf, not eps2, and the resulting start point is
the nan vector rather than the eps2-scaled perturbation of xf. -/
theorem c8_counterexample :
    betaFloor (.fin (1 / 10)) (.fin 1) (.fin 0) = Fl.inf
    ∧ Fl.inf ≠ Fl.fin (1 / 10)
    ∧ tunnelStart (.fin (1 / 10)) (.fin 1) (.fin 0)
        [.fin 1] [.fin 0] [.ninf] [.inf] = [Fl.nan]
    ∧ perturbClip (.fin (1 / 10)) [.fin 1] [.fin 0] [.ninf] [.inf]
        = [.fin 1] := by
  refine ⟨?_, by simp, ?_, ?_⟩
  · norm_num [betaFloor, betaRaw, flMul, flDiv, flAbs, flLt]
  · norm_num [tunnelStart, betaFloor, betaRaw, perturbClip, zip4, flMul,
      flDiv, flAbs, flLt, flAdd]
  · norm_num [perturbClip, zip4, flMul, flDiv, flAbs, flLt, flAdd]

/-- C8 amended: the floor to the bare eps2 value fires exactly when the
computed scale eps2*norm(xf)/norm(r) is finite with magnitude below 1e-8
(in particular when the last local minimum has zero norm and r does not),
and then the new start point is xf + eps2*r clipped to the bounds; when r
has zero norm the scale is instead non-finite (+inf for a positive
numerator) and no flooring occurs. -/
theorem c8_beta_floor (e nx nr : ℚ) :
    (nr ≠ 0 → |e * nx / nr| < 1 / 100000000 →
      betaFloor (.fin e) (.fin nx) (.fin nr) = .fin e
      ∧ ∀ xf r low up, tunnelStart (.fin e) (.fin nx) (.fin nr) xf r low up
          = perturbClip (.fin e) xf r low up)
    ∧ (nr = 0 → 0 < e * nx →
      betaFloor (.fin e) (.fin nx) (.fin nr) = Fl.inf) := by
  constructor
  · intro hnr hlt
    have h1 : betaRaw (.fin e) (.fin nx) (.fin nr) = .fin (e * nx / nr) := by
      unfold betaRaw
      simp [flMul, flDiv, hnr]
    have hb : betaFloor (.fin e) (.fin nx) (.fin nr) = .fin e := by
      have h2 : flLt (flAbs (.fin (e * nx / nr))) (.fin (1 / 100000000))
          = true := by
        simp only [flAbs, flLt, decide_eq_true_eq]
        exact hlt
      unfold betaFloor
      rw [h1, h2]
      rfl
    refine ⟨hb, fun xf r low up => ?_⟩
    unfold tunnelStart
    rw [hb]
  · intro hnr hpos
    subst hnr
    unfold betaFloor betaRaw
    simp [flMul, flDiv, flAbs, flLt, hpos.ne.symm, hpos]

/-- zip4 of four maps over the same list is the map of the 4-tuple of the
functions (the source zips the four unpacked columns of one dataset). -/
theorem zip4_map {α β1 β2 β3 β4 : Type} (f1 : α → β1) (f2 : α → β2)
    (f3 : α → β3) (f4 : α → β4) :
    ∀ l : List α,
      zip4 (l.map f1) (l.map f2) (l.map f3) (l.map f4)
        = l.map (fun x => (f1 x, f2 x, f3 x, f4 x)) := by
  intro l
  induction l with
  | nil => rfl
  | cons x xs ih => simp [zip4, ih]

/-- The chi2 accumulator loop equals the accumulator plus the specification
sum. -/
theorem chi2R1p_acc (pred : FitOb → ℚ → ℚ → ℚ → ℚ) :
    ∀ (l : List FitOb) (a : ℚ),
      l.foldl (fun chisq ob =>
        let offs := ob.rows.map R1pRow.off
        let spinlock := ob.rows.map R1pRow.slp
        let r1p := ob.rows.map R1pRow.r1p
        let r1pE := ob.rows.map R1pRow.err
        if 1 < r1pE.length then
          chisq + ((zip4 spinlock offs r1p r1pE).map (fun q =>
            ((pred ob q.1 (-1 * q.2.1) q.2.2.1 - q.2.2.1) / q.2.2.2) ^ 2)).sum
        else
          chisq + ((zip4 spinlock offs r1p r1pE).map (fun q =>
            (pred ob q.1 (-1 * q.2.1) q.2.2.1 - q.2.2.1) ^ 2 / q.2.2.1)).sum) a
      = a + chi2Spec l pred := by
  intro l
  induction l with
  | nil =>
    intro a
    simp [chi2Spec]
  | cons ob rest ih =>
    intro a
    simp only [List.foldl_cons]
    rw [ih]
    unfold chi2Spec
    simp only [List.map_cons, List.sum_cons]
    by_cases h : 1 < ob.rows.length
    · rw [if_pos (by simpa using h), if_pos h, zip4_map, List.map_map]
      rw [add_assoc]
      rfl
    · rw [if_neg (by simpa using h), if_neg h, zip4_map, List.map_map]
      rw [add_assoc]
      rfl

/-- C3: for every parameter vector in R1rho mode, chi2 is the sum over all
datasets and all data points of ((predicted-observed)/error)^2 when the
dataset's per-point error column is usable for weighting (the source's
test: the column has more than one entry, i.e. the dataset has more than
one point), and otherwise of (predicted-observed)^2/observed, the
prediction being the simulator output at the point's spinlock power,
negated offset, and dataset parameters. -/
theorem c3_chi2_formula (obs : List FitOb)
    (pred : FitOb → ℚ → ℚ → ℚ → ℚ) :
    chi2R1p obs pred = chi2Spec obs pred := by
  unfold chi2R1p
  rw [chi2R1p_acc, zero_add]

/-- Inserting the key-value pair already forming a singleton dict leaves it
unchanged. -/
theorem dictInsert_same (k : ℚ) (v : List ℚ) :
    dictInsert [(k, v)] k v = [(k, v)] := by
  simp [dictInsert]

/-- Repeatedly inserting the same key-value pair into the empty dict yields
the singleton dict (or the empty dict after zero insertions). -/
theorem foldl_dictInsert_range (k : ℚ) (v : List ℚ) :
    ∀ m : ℕ, (List.range m).foldl (fun d _ => dictInsert d k v) []
      = if m = 0 then [] else [(k, v)] := by
  intro m
  induction m with
  | zero => rfl
  | succ n ih =>
    rw [List.range_succ, List.foldl_append, ih]
    simp only [List.foldl_cons, List.foldl_nil]
    by_cases hn : n = 0
    · subst hn
      simp [dictInsert]
    · rw [if_neg hn, if_neg (Nat.succ_ne_zero n)]
      exact dictInsert_same k v

/-- Brute_loop produces the singleton dict of its grid point (at least one
Fit object exists). -/
theorem brute_loop_singleton (score : ℕ → ℚ) (grid : ℕ → List ℚ)
    (nObs idx : ℕ) (h : 1 ≤ nObs) :
    Brute_loop score grid nObs idx = [(score idx, grid idx)] := by
  unfold Brute_loop
  rw [foldl_dictInsert_range]
  rw [if_neg (by omega)]

/-- What the source actually seeds the final brute-force refinement with:
grid point 0, whatever the scores are — dict(allfits[0]) keeps only the
first worker's singleton dict, so the minimum is taken over one key. -/
theorem bruteSeed_eq_first_grid_point (score : ℕ → ℚ) (grid : ℕ → List ℚ)
    (nObs n : ℕ) (h1 : 1 ≤ nObs) (h2 : 1 ≤ n) :
    bruteSeed score grid nObs n = grid 0 := by
  unfold bruteSeed parmap
  obtain ⟨m, rfl⟩ : ∃ m, n = m + 1 := ⟨n - 1, by omega⟩
  rw [List.range_succ_eq_map]
  simp only [List.map_cons, List.headD_cons]
  rw [brute_loop_singleton score grid nObs 0 h1]
  simp [dictMinKey, dictGet, listMaxD]

/-- C1, evaluation at the failing input: a two-point grid with one dataset
where grid point 1 has the strictly lower reduced chi-square.  The code
seeds the final refinement with grid point 0, while the claimed selection
(the grid point with the lowest reduced chi-square over the whole grid) is
grid point 1. -/
theorem c1_code_bug_eval :
    bruteSeed scoreW gridW 1 2 = [(0 : ℚ)]
    ∧ bruteSeedSpec scoreW gridW 2 = [(1 : ℚ)]
    ∧ scoreW 1 < scoreW 0
    ∧ bruteSeed scoreW gridW 1 2 ≠ bruteSeedSpec scoreW gridW 2 := by
  have h1 : bruteSeed scoreW gridW 1 2 = [(0 : ℚ)] := by
    rw [bruteSeed_eq_first_grid_point scoreW gridW 1 2 le_rfl (by omega)]
    norm_num [gridW]
  have h2 : bruteSeedSpec scoreW gridW 2 = [(1 : ℚ)] := by
    norm_num [bruteSeedSpec, argminIdx, scoreW, gridW, List.range_succ,
      min_def]
  refine ⟨h1, h2, by norm_num [scoreW], ?_⟩
  rw [h1, h2]
  simp

/-- A multiplicative foldl over a list equals the seed times the product of
the mapped list (the source's denominator loops start at 1.0). -/
theorem foldl_mul_map {α : Type} (g : α → ℝ) :
    ∀ (l : List α) (a : ℝ),
      l.foldl (fun d t => d * g t) a = a * (l.map g).prod := by
  intro l
  induction l with
  | nil => intro a; simp
  | cons t ts ih =>
    intro a
    simp only [List.foldl_cons, List.map_cons, List.prod_cons]
    rw [ih, mul_assoc]

/-- A sum of squares is nonnegative. -/
theorem sumSqR_nonneg (v : List ℝ) : 0 ≤ sumSqR v := by
  refine List.sum_nonneg ?_
  intro q hq
  obtain ⟨w, _, rfl⟩ := List.mem_map.mp hq
  exact sq_nonneg w

/-- Pointwise strictly dominated positive factors give a strictly smaller
positive product (for a nonempty list). -/
theorem prod_lt_prod_of_forall {α : Type} (g h : α → ℝ) :
    ∀ T : List α, T ≠ [] → (∀ t ∈ T, 0 < g t ∧ g t < h t) →
      0 < (T.map g).prod ∧ (T.map g).prod < (T.map h).prod := by
  intro T
  induction T with
  | nil => intro hne; exact absurd rfl hne
  | cons t ts ih =>
    intro _ hlt
    obtain ⟨hg, hgh⟩ := hlt t (by simp)
    by_cases hts : ts = []
    · subst hts
      simpa using ⟨hg, hgh⟩
    · obtain ⟨ihp, ihlt⟩ := ih hts (fun u hu => hlt u (by simp [hu]))
      refine ⟨?_, ?_⟩
      · simp only [List.map_cons, List.prod_cons]
        exact mul_pos hg ihp
      · simp only [List.map_cons, List.prod_cons]
        exact mul_lt_mul'' hgh ihlt (le_of_lt hg) (le_of_lt ihp)

/-- C5: at a point x distinct from every tabu point (all squared distances
nonzero), applying inverse_tunnel to the value tunnel computes at x
recovers the true objective whenever the objective is at least the
aspiration value. -/
theorem c5_inverse_tunnel (f : List ℝ → ℝ) (a : ℝ) (T : List (List ℝ))
    (x : List ℝ) (hdist : ∀ t ∈ T, sumSqR (vsubR x t) ≠ 0)
    (hfa : a ≤ f x) :
    inverse_tunnel x (tunnel f a T x) a T = f x := by
  simp only [tunnel, inverse_tunnel]
  rw [foldl_mul_map, one_mul]
  have hDpos : 0 < (T.map fun t => Real.sqrt (sumSqR (vsubR x t))).prod := by
    refine List.prod_pos ?_
    intro b hb
    obtain ⟨t, ht, rfl⟩ := List.mem_map.mp hb
    exact Real.sqrt_pos.mpr
      (lt_of_le_of_ne (sumSqR_nonneg _) (Ne.symm (hdist t ht)))
  rw [div_mul_cancel₀ _ hDpos.ne', Real.sqrt_sq_eq_abs,
    abs_of_nonneg (sub_nonneg.mpr hfa)]
  ring

/-- C5 witness: with objective constantly 5, aspiration 1, tabu list [[0]]
and test point [3], the inverse transform of the tunnelled value recovers 5. -/
theorem c5_witness :
    inverse_tunnel [3] (tunnel fiveObj 1 [[0]] [3]) 1 [[0]] = 5 := by
  have h5 : fiveObj [3] = 5 := rfl
  have := c5_inverse_tunnel fiveObj 1 [[0]] [3] ?_ ?_
  · rw [this, h5]
  · intro t ht
    simp only [List.mem_singleton] at ht
    subst ht
    norm_num [sumSqR, vsubR]
  · rw [h5]
    norm_num

/-- C6 counterexample: when the objective at the tested point equals the
aspiration value, the numerator is zero and the magnitude of the tunnelling
objective stays 0 as the point moves strictly farther from the (single)
tabu point, so it does not strictly decrease. -/
theorem c6_counterexample :
    Real.sqrt (sumSqR (vsubR [1] [0])) < Real.sqrt (sumSqR (vsubR [2] [0]))
    ∧ (zeroObj [1] - 0) ^ 2 = (zeroObj [2] - 0) ^ 2
    ∧ ¬ |tunnel zeroObj 0 [[0]] [2]| < |tunnel zeroObj 0 [[0]] [1]| := by
  have e1 : sumSqR (vsubR [(1 : ℝ)] [0]) = 1 := by norm_num [sumSqR, vsubR]
  have e2 : sumSqR (vsubR [(2 : ℝ)] [0]) = 4 := by norm_num [sumSqR, vsubR]
  refine ⟨?_, rfl, ?_⟩
  · rw [e1, e2, Real.sqrt_one,
      show (4 : ℝ) = 2 ^ 2 by norm_num, Real.sqrt_sq (by norm_num)]
    norm_num
  · have t1 : tunnel zeroObj 0 [[0]] [2] = 0 := by
      simp [tunnel, zeroObj]
    have t2 : tunnel zeroObj 0 [[0]] [1] = 0 := by
      simp [tunnel, zeroObj]
    rw [t1, t2]
    simp

/-- C6 amended: with the squared numerator held fixed and nonzero (the
objective at the tested point differs from the aspiration value) and the
tabu list nonempty, the magnitude of the tunnelling objective strictly
decreases as the tested point's Euclidean distance to every tabu point
strictly increases (all distances nonzero). -/
theorem c6_tabu_repulsion (f : List ℝ → ℝ) (a : ℝ) (T : List (List ℝ))
    (x y : List ℝ) (hT : T ≠ []) (hfa : f x ≠ a)
    (hnum : (f x - a) ^ 2 = (f y - a) ^ 2)
    (hdist : ∀ t ∈ T, 0 < Real.sqrt (sumSqR (vsubR x t))
      ∧ Real.sqrt (sumSqR (vsubR x t)) < Real.sqrt (sumSqR (vsubR y t))) :
    |tunnel f a T y| < |tunnel f a T x| := by
  simp only [tunnel]
  rw [foldl_mul_map, foldl_mul_map, one_mul, one_mul]
  obtain ⟨hDx, hDlt⟩ := prod_lt_prod_of_forall _ _ T hT hdist
  have hDy : 0 < (T.map fun t => Real.sqrt (sumSqR (vsubR y t))).prod :=
    lt_trans hDx hDlt
  have hN : 0 < (f x - a) ^ 2 :=
    pow_two_pos_of_ne_zero (sub_ne_zero.mpr hfa)
  rw [← hnum, abs_of_pos (div_pos hN hDy), abs_of_pos (div_pos hN hDx)]
  exact div_lt_div_of_pos_left hN hDx hDlt

/-- C6 witness: moving the tested point from distance 1 to distance 2 from
the single tabu point, with numerator fixed at 1, strictly decreases the
magnitude of the tunnelling objective. -/
theorem c6_witness :
    |tunnel zeroObj 1 [[0]] [2]| < |tunnel zeroObj 1 [[0]] [1]| := by
  refine c6_tabu_repulsion zeroObj 1 [[0]] [1] [2] (by simp)
    (by norm_num [zeroObj]) (by norm_num [zeroObj]) ?_
  intro t ht
  simp only [List.mem_singleton] at ht
  subst ht
  have e1 : sumSqR (vsubR [(1 : ℝ)] [0]) = 1 := by norm_num [sumSqR, vsubR]
  have e2 : sumSqR (vsubR [(2 : ℝ)] [0]) = 4 := by norm_num [sumSqR, vsubR]
  rw [e1, e2, Real.sqrt_one,
    show (4 : ℝ) = 2 ^ 2 by norm_num, Real.sqrt_sq (by norm_num)]
  norm_num

/-- The seed is a lower bound of a running maximum. -/
theorem le_listMaxD_self : ∀ (xs : List ℚ) (x : ℚ), x ≤ listMaxD x xs := by
  intro xs
  induction xs with
  | nil => intro x; exact le_refl x
  | cons y ys ih =>
    intro x
    have : listMaxD x (y :: ys) = listMaxD (max x y) ys := rfl
    rw [this]
    exact le_trans (le_max_left x y) (ih (max x y))

/-- A running maximum started at max a b splits off the a component. -/
theorem listMaxD_max_comm :
    ∀ (l : List ℚ) (a b : ℚ), listMaxD (max a b) l = max a (listMaxD b l) := by
  intro l
  induction l with
  | nil => intro a b; rfl
  | cons c cs ih =>
    intro a b
    have h1 : listMaxD (max a b) (c :: cs) = listMaxD (max (max a b) c) cs :=
      rfl
    have h2 : listMaxD b (c :: cs) = listMaxD (max b c) cs := rfl
    rw [h1, h2, max_assoc, ih]

/-- Every member of x :: xs is bounded by the running maximum. -/
theorem mem_le_listMaxD :
    ∀ (xs : List ℚ) (x d : ℚ), d ∈ x :: xs → d ≤ listMaxD x xs := by
  intro xs
  induction xs with
  | nil =>
    intro x d hd
    simp only [List.mem_singleton] at hd
    subst hd
    exact le_refl d
  | cons y ys ih =>
    intro x d hd
    have hstep : listMaxD x (y :: ys) = listMaxD (max x y) ys := rfl
    rw [hstep]
    rcases List.mem_cons.mp hd with h | h
    · subst h
      exact le_trans (le_max_left d y) (le_listMaxD_self ys (max d y))
    · rcases List.mem_cons.mp h with h1 | h1
      · subst h1
        exact le_trans (le_max_right x d) (le_listMaxD_self ys (max x d))
      · exact ih (max x y) d (List.mem_cons_of_mem _ h1)

/-- numpy.argmax returns an index inside the (nonempty) list. -/
theorem argmaxIdx_lt_length :
    ∀ l : List ℚ, l ≠ [] → argmaxIdx l < l.length := by
  intro l
  induction l with
  | nil => intro h; exact absurd rfl h
  | cons x xs ih =>
    intro _
    unfold argmaxIdx
    by_cases hc : listMaxD x xs ≤ x
    · rw [if_pos hc]
      simp
    · rw [if_neg hc]
      have hxs : xs ≠ [] := by
        intro he
        subst he
        exact hc (le_refl x)
      have := ih hxs
      simp only [List.length_cons]
      omega

/-- The element numpy.argmax selects is the running maximum of the list. -/
theorem getD_argmaxIdx :
    ∀ (xs : List ℚ) (x : ℚ),
      (x :: xs).getD (argmaxIdx (x :: xs)) 0 = listMaxD x xs := by
  intro xs
  induction xs with
  | nil =>
    intro x
    have h0 : argmaxIdx [x] = 0 := by
      unfold argmaxIdx
      rw [if_pos (show listMaxD x [] ≤ x from le_refl x)]
    rw [h0]
    rfl
  | cons y ys ih =>
    intro x
    have hstep : listMaxD x (y :: ys) = max x (listMaxD y ys) := by
      have h1 : listMaxD x (y :: ys) = listMaxD (max x y) ys := rfl
      rw [h1, listMaxD_max_comm]
    unfold argmaxIdx
    by_cases hc : listMaxD x (y :: ys) ≤ x
    · rw [if_pos hc]
      exact le_antisymm (le_listMaxD_self (y :: ys) x) hc
    · rw [if_neg hc]
      have hda : ((x :: y :: ys).getD (argmaxIdx (y :: ys) + 1) 0)
          = (y :: ys).getD (argmaxIdx (y :: ys)) 0 := rfl
      rw [hda, ih y, hstep]
      have hlt : x < listMaxD y ys := by
        by_contra hx
        push_neg at hx
        exact hc (by rw [hstep]; exact max_le (le_refl x) hx)
      exact (max_eq_right (le_of_lt hlt)).symm

/-- Every member of a nonempty list is bounded by the element at its
argmax index. -/
theorem argmaxIdx_is_max (l : List ℚ) (hne : l ≠ []) :
    ∀ d ∈ l, d ≤ l.getD (argmaxIdx l) 0 := by
  intro d hd
  match l, hne with
  | x :: xs, _ =>
    rw [getD_argmaxIdx xs x]
    exact mem_le_listMaxD xs x d hd

/-- A sum of squares over ℚ is nonnegative. -/
theorem sumSq_nonneg (v : List ℚ) : 0 ≤ sumSq v := by
  refine List.sum_nonneg ?_
  intro q hq
  obtain ⟨w, _, rfl⟩ := List.mem_map.mp hq
  exact sq_nonneg w

/-- The square root is monotone on the reals. -/
theorem sqrt_mono : Monotone Real.sqrt := fun _ _ h => Real.sqrt_le_sqrt h

/-- A running maximum commutes with the square root of the cast. -/
theorem listMaxDR_map_sqrt :
    ∀ (xs : List ℚ) (x : ℚ),
      listMaxDR (Real.sqrt x) (xs.map fun q => Real.sqrt q)
        = Real.sqrt (listMaxD x xs) := by
  intro xs
  induction xs with
  | nil => intro x; rfl
  | cons y ys ih =>
    intro x
    have h1 : listMaxDR (Real.sqrt x) ((y :: ys).map fun q => Real.sqrt q)
        = listMaxDR (max (Real.sqrt x) (Real.sqrt y))
            (ys.map fun q => Real.sqrt q) := rfl
    have h2 : listMaxD x (y :: ys) = listMaxD (max x y) ys := rfl
    have hmax : max (Real.sqrt x) (Real.sqrt y)
        = Real.sqrt ((max x y : ℚ) : ℝ) := by
      rw [Rat.cast_max, sqrt_mono.map_max]
    rw [h1, h2, hmax, ih (max x y)]

/-- numpy.argmax selects the same index over the square roots of a list of
nonnegative rationals as over the list itself: the source's argmax over
sqrt distances equals the model's argmax over squared distances. -/
theorem argmaxIdxR_map_sqrt :
    ∀ l : List ℚ, (∀ q ∈ l, 0 ≤ q) →
      argmaxIdxR (l.map fun q => Real.sqrt q) = argmaxIdx l := by
  intro l
  induction l with
  | nil => intro _; rfl
  | cons x xs ih =>
    intro hnn
    have hx : (0 : ℚ) ≤ x := hnn x (by simp)
    have hgoal : argmaxIdxR ((x :: xs).map fun q => Real.sqrt q)
        = if listMaxDR (Real.sqrt x) (xs.map fun q => Real.sqrt q)
            ≤ Real.sqrt x then 0
          else argmaxIdxR (xs.map fun q => Real.sqrt q) + 1 := rfl
    rw [hgoal, listMaxDR_map_sqrt]
    have hiff : (Real.sqrt (listMaxD x xs) ≤ Real.sqrt x)
        ↔ listMaxD x xs ≤ x := by
      rw [Real.sqrt_le_sqrt_iff (by exact_mod_cast hx)]
      exact_mod_cast Iff.rfl
    unfold argmaxIdx
    by_cases hc : listMaxD x xs ≤ x
    · rw [if_pos (hiff.mpr hc), if_pos hc]
    · rw [if_neg (fun hcc => hc (hiff.mp hcc)), if_neg hc,
        ih (fun q hq => hnn q (List.mem_cons_of_mem x hq))]

/-- The "farthest" eviction of the model (argmax over squared distances)
selects the same index as the source (argmax over numpy.sqrt of the squared
distances). -/
theorem drop_tabu_sqrt_argmax (T : List (List ℚ)) (xf : List ℚ) :
    argmaxIdxR ((distancesSq T xf).map fun q => Real.sqrt q)
      = argmaxIdx (distancesSq T xf) := by
  refine argmaxIdxR_map_sqrt (distancesSq T xf) ?_
  intro q hq
  obtain ⟨t, _, rfl⟩ := List.mem_map.mp hq
  exact sumSq_nonneg _

/-- C7: drop_tabu_points leaves lists shorter than tabulistsize unchanged,
otherwise removes exactly one element (index 0 under "oldest"; the first
index of maximal squared Euclidean distance from the latest local minimum
under "farthest"), so a drop-then-append step preserves length at most
tabulistsize whenever tabulistsize is at least 1. -/
theorem drop_tabu_keep (xf : List ℚ) (T : List (List ℚ)) (size : ℕ)
    (strat : TabuStrategy) (h : T.length < size) :
    drop_tabu_points xf T size strat = T := by
  unfold drop_tabu_points
  rw [if_pos h]

/-- The farthest-strategy index is inside the (nonempty) tabu list. -/
theorem drop_tabu_idx_lt (xf : List ℚ) (T : List (List ℚ)) (hne : T ≠ []) :
    argmaxIdx (distancesSq T xf) < T.length := by
  have hdne : distancesSq T xf ≠ [] := by
    unfold distancesSq
    simpa using hne
  have := argmaxIdx_lt_length (distancesSq T xf) hdne
  unfold distancesSq at this
  simpa using this

/-- At capacity, drop_tabu_points removes exactly one element. -/
theorem drop_tabu_len (xf : List ℚ) (T : List (List ℚ)) (size : ℕ)
    (strat : TabuStrategy) (hge : size ≤ T.length) (h1 : 1 ≤ size) :
    (drop_tabu_points xf T size strat).length + 1 = T.length := by
  have hne : T ≠ [] := by
    intro he
    subst he
    simp at hge
    omega
  unfold drop_tabu_points
  rw [if_neg (not_lt.mpr hge)]
  cases strat with
  | oldest =>
    show T.tail.length + 1 = T.length
    have := List.length_tail T
    have hT1 : 1 ≤ T.length := le_trans h1 hge
    omega
  | farthest =>
    exact List.length_eraseIdx_add_one (drop_tabu_idx_lt xf T hne)

/-- A drop-then-append step preserves the capacity bound. -/
theorem drop_tabu_append_le (xf : List ℚ) (T : List (List ℚ)) (size : ℕ)
    (strat : TabuStrategy) (hle : T.length ≤ size) (h1 : 1 ≤ size) :
    (drop_tabu_points xf T size strat ++ [xf]).length ≤ size := by
  by_cases h : T.length < size
  · rw [drop_tabu_keep xf T size strat h]
    simp only [List.length_append, List.length_singleton]
    omega
  · have hge : size ≤ T.length := not_lt.mp h
    have := drop_tabu_len xf T size strat hge h1
    simp only [List.length_append, List.length_singleton]
    omega

/-- C7: drop_tabu_points leaves lists shorter than tabulistsize unchanged,
otherwise removes exactly one element (index 0 under "oldest"; the first
index of maximal squared Euclidean distance from the latest local minimum
under "farthest" — the same index the source's argmax over sqrt distances
selects, by drop_tabu_sqrt_argmax), so a drop-then-append step preserves
length at most tabulistsize whenever tabulistsize is at least 1; in
particular the AMPGO loop's tabu update tabuAppend preserves the capacity
bound throughout a run. -/
theorem c7_tabu_bound (xf : List ℚ) (T : List (List ℚ)) (size : ℕ)
    (strat : TabuStrategy) :
    (T.length < size → drop_tabu_points xf T size strat = T)
    ∧ (size ≤ T.length → 1 ≤ size →
        (drop_tabu_points xf T size strat).length + 1 = T.length
        ∧ (strat = .oldest → drop_tabu_points xf T size strat = T.tail)
        ∧ (strat = .farthest →
            drop_tabu_points xf T size strat
              = T.eraseIdx (argmaxIdx (distancesSq T xf))
            ∧ argmaxIdx (distancesSq T xf) < T.length
            ∧ ∀ d ∈ distancesSq T xf,
                d ≤ (distancesSq T xf).getD (argmaxIdx (distancesSq T xf)) 0))
    ∧ (T.length ≤ size → 1 ≤ size →
        (drop_tabu_points xf T size strat ++ [xf]).length ≤ size)
    ∧ (∀ (cfg : AmpgoCfg) (st : AmpgoSt), 1 ≤ cfg.tabulistsize →
        st.tabulist.length ≤ cfg.tabulistsize →
        (tabuAppend cfg st).tabulist.length ≤ cfg.tabulistsize) := by
  refine ⟨drop_tabu_keep xf T size strat,
    fun hge h1 => ⟨drop_tabu_len xf T size strat hge h1, ?_, ?_⟩,
    drop_tabu_append_le xf T size strat,
    fun cfg st h1 h2 =>
      drop_tabu_append_le st.xf st.tabulist cfg.tabulistsize
        cfg.tabustrategy h2 h1⟩
  · intro hs
    subst hs
    unfold drop_tabu_points
    rw [if_neg (not_lt.mpr hge)]
  · intro hs
    subst hs
    have hne : T ≠ [] := by
      intro he
      subst he
      simp at hge
      omega
    have hdne : distancesSq T xf ≠ [] := by
      unfold distancesSq
      simpa using hne
    refine ⟨?_, drop_tabu_idx_lt xf T hne, argmaxIdx_is_max _ hdne⟩
    unfold drop_tabu_points
    rw [if_neg (not_lt.mpr hge)]

/-- C7 witness: with capacity 2 and a full list of two points, the oldest
strategy drops index 0 and the drop-then-append step keeps the length at 2. -/
theorem c7_witness :
    drop_tabu_points [0] [[3], [1]] 2 .oldest = [[1]]
    ∧ (drop_tabu_points [0] [[3], [1]] 2 .oldest ++ [[0]]).length ≤ 2 := by
  have h := c7_tabu_bound [0] [[3], [1]] 2 .oldest
  have h2 := (h.2.1 (by norm_num) (by norm_num)).2.1 rfl
  exact ⟨by rw [h2]; rfl, h.2.2.1 (by norm_num) (by norm_num)⟩

/-- Adding a finite tolerance to -inf stays -inf. -/
theorem flAdd_ninf_fin (g : ℚ) : flAdd .ninf (.fin g) = .ninf := rfl

/-- No float compares strictly below -inf (nan comparisons are false). -/
theorem flLt_ninf (b : Fl) : flLt b .ninf = false := by
  cases b <;> rfl

/-- With fmin = -inf, an early return out of the tunnelling loop can only
carry the exhausted-evaluations message. -/
theorem tunnelLoop_inl_msg (cfg : AmpgoCfg) (env : AmpgoEnv)
    (hf : cfg.fmin = .ninf) :
    ∀ (fuel : ℕ) (st : AmpgoSt) (out : AmpgoOut),
      tunnelLoop cfg env fuel st = .inl out → out.msg = .maxfev := by
  intro fuel
  induction fuel with
  | zero =>
    intro st out h
    simp [tunnelLoop] at h
  | succ n ih =>
    intro st out h
    rw [tunnelLoop] at h
    simp only [hf, flAdd_ninf_fin, flLt_ninf, Bool.false_eq_true,
      if_false] at h
    split at h
    · injection h with h2
      subst h2
      rfl
    · split at h
      · simp at h
      · exact ih _ out h

/-- With fmin = -inf, an early return out of one outer pass can only carry
the exhausted-evaluations message. -/
theorem outerStep_inl_msg (cfg : AmpgoCfg) (env : AmpgoEnv)
    (hf : cfg.fmin = .ninf) :
    ∀ (st : AmpgoSt) (out : AmpgoOut),
      outerStep cfg env st = .inl out → out.msg = .maxfev := by
  intro st out h
  rw [outerStep] at h
  simp only [hf, flAdd_ninf_fin, flLt_ninf, Bool.false_eq_true,
    if_false] at h
  split at h
  · injection h with h2
    subst h2
    rfl
  · exact tunnelLoop_inl_msg cfg env hf _ _ out h

/-- With fmin = -inf, the outer loop terminates with one of the two
budget-exhaustion messages, never the success message. -/
theorem globalLoop_msg (cfg : AmpgoCfg) (env : AmpgoEnv)
    (hf : cfg.fmin = .ninf) :
    ∀ (fuel : ℕ) (st : AmpgoSt),
      (globalLoop cfg env fuel st).msg = .maxfev
      ∨ (globalLoop cfg env fuel st).msg = .maxiterExceeded := by
  intro fuel
  induction fuel with
  | zero =>
    intro st
    cases hos : outerStep cfg env st with
    | inl out =>
      left
      simp only [globalLoop, hos]
      exact outerStep_inl_msg cfg env hf st out hos
    | inr st1 =>
      right
      simp only [globalLoop, hos]
      rfl
  | succ n ih =>
    intro st
    cases hos : outerStep cfg env st with
    | inl out =>
      left
      simp only [globalLoop, hos]
      exact outerStep_inl_msg cfg env hf st out hos
    | inr st1 =>
      simp only [globalLoop, hos, hf, flAdd_ninf_fin, flLt_ninf,
        Bool.false_eq_true, if_false]
      exact ih st1

/-- C4: when AMPGO runs with no known global optimum (fmin = -inf, its
default) and a valid tabu-list capacity, the run terminates (the model is a
total function whose iteration counts mirror the source's) and returns the
tracked best point with either the evaluation-budget message or the
global-iteration message, never the success message. -/
theorem c4_ampgo_termination (cfg : AmpgoCfg) (env : AmpgoEnv)
    (x0 : List ℚ) (hf : cfg.fmin = .ninf) (hts : 1 ≤ cfg.tabulistsize) :
    ∃ out, AMPGO cfg env x0 = .ok out
      ∧ out.msg ≠ .success
      ∧ (out.msg = .maxfev ∨ out.msg = .maxiterExceeded)
      ∧ msgText out.msg ≠ "Optimization terminated successfully"
      ∧ (msgText out.msg
            = "Maximum number of function evaluations exceeded"
        ∨ msgText out.msg
            = "Maximum number of global iterations exceeded") := by
  have hm2 := globalLoop_msg cfg env hf (cfg.totaliter - 1)
    ⟨x0, .inf, x0, cfg.maxfunevals, 0, [], 0, 0, 0, 0⟩
  refine ⟨globalLoop cfg env (cfg.totaliter - 1)
    ⟨x0, .inf, x0, cfg.maxfunevals, 0, [], 0, 0, 0, 0⟩, ?_, ?_, hm2, ?_, ?_⟩
  · unfold AMPGO
    rw [if_neg (by omega)]
  · rcases hm2 with hm | hm <;> rw [hm] <;> simp
  · rcases hm2 with hm | hm <;> rw [hm] <;> simp [msgText]
  · rcases hm2 with hm | hm
    · rw [hm]
      left
      rfl
    · rw [hm]
      right
      rfl

/-- C4 witness: a concrete configuration with fmin = -inf and trivial
solver oracles terminates with a non-success message. -/
theorem c4_witness :
    ∃ out, AMPGO cfgW envAW [] = .ok out
      ∧ out.msg ≠ .success
      ∧ (out.msg = .maxfev ∨ out.msg = .maxiterExceeded)
      ∧ msgText out.msg ≠ "Optimization terminated successfully"
      ∧ (msgText out.msg
            = "Maximum number of function evaluations exceeded"
        ∨ msgText out.msg
            = "Maximum number of global iterations exceeded") :=
  c4_ampgo_termination cfgW envAW [] rfl (by decide)

/-- C8 witness: a sub-threshold finite scale is floored to eps2, a
zero-norm r yields a non-finite scale. -/
theorem c8_witness :
    betaFloor (.fin (1 / 10)) (.fin 0) (.fin 1) = .fin (1 / 10)
    ∧ betaFloor (.fin (1 / 10)) (.fin 1) (.fin 0) = Fl.inf :=
  ⟨((c8_beta_floor (1 / 10) 0 1).1 (by norm_num) (by norm_num)).1,
   (c8_beta_floor (1 / 10) 1 0).2 rfl (by norm_num)⟩

end BMNS
